import Mathlib

/-!
Verification of the inhouse-bot matchmaking orchestration
(`src/inhouse_bot/cogs/queue_cog.py`).

The file embeds the queue cog's orchestration (`run_matchmaking_logic`,
`won`, `cancel_game`) as pure Lean functions over an explicit waiting-pool
state and an effect trace.  Collaborators that the cog calls but whose code
is not part of the repository snapshot (the ready-check dialog
`checkmark_validation`, the `game_queue` mutation helpers, the matchmaking
search `find_best_game`) are modelled from the specification; each such
definition carries a doc comment saying so.
-/

namespace InhouseBot

/-- A waiting-pool entry: one participant queued for one role in one
channel.  Mirrors the spec's `WaitingEntry` (participant, role, channel);
the join order is the position in the pool list. -/
structure Entry where
  player : Nat
  role : Nat
  channel : Nat
deriving DecidableEq, Repr

/-- The candidate returned by the matchmaking search, with the fields the
queue cog reads: `player_ids_list` (the ten matched players) and
`matchmaking_score` (the imbalance score, |win probability - 1/2|). -/
structure Game where
  player_ids_list : List Nat
  matchmaking_score : ℚ
deriving DecidableEq, Repr

/-- Confirmation state of one reserved participant during a ready check. -/
inductive Confirmation where
  | pending
  | accepted
  | declined
deriving DecidableEq, Repr

/-- One confirmation event: at time `t`, player `player` presses accept
(`accept = true`) or decline (`accept = false`). -/
structure ConfirmEvent where
  t : Nat
  player : Nat
  accept : Bool
deriving DecidableEq, Repr

/-- Outcome of a ready check as the cog consumes it: `validated`
corresponds to `ready = True`, `cancelled d` to `ready = False` with
`players_to_drop = d`, and `timedOut d` to `ready = None` with
`players_to_drop = d`. -/
inductive ReadyOutcome where
  | validated
  | cancelled (toDrop : List Nat)
  | timedOut (toDrop : List Nat)
deriving DecidableEq, Repr

/-- Point update of a confirmation-state table. -/
def setConf (st : Nat → Confirmation) (p : Nat) (v : Confirmation) : Nat → Confirmation :=
  fun q => if q = p then v else st q

/-- Participants of `ps` currently `pending` in `st`. -/
def pendingOf (ps : List Nat) (st : Nat → Confirmation) : List Nat :=
  ps.filter (fun p => decide (st p = Confirmation.pending))

/-- Participants of `ps` currently `accepted` in `st`. -/
def acceptedOf (ps : List Nat) (st : Nat → Confirmation) : List Nat :=
  ps.filter (fun p => decide (st p = Confirmation.accepted))

/-- Participants of `ps` currently `declined` in `st`. -/
def declinedOf (ps : List Nat) (st : Nat → Confirmation) : List Nat :=
  ps.filter (fun p => decide (st p = Confirmation.declined))

/-- Modelled from the spec: the event loop of the ready-check dialog
(`checkmark_validation` in `validation_dialog.py`, absent from the
snapshot).  Events are processed in order; an event at or after the
deadline is not received, resolving the check as timed out with the
still-pending participants as the drop set.  A confirmation from a
non-reserved player is ignored.  A decline cancels immediately, the drop
set being the decliners observed at that moment; an accept that brings the
accepted count to the threshold validates. -/
def readyCheckAux (ps : List Nat) (threshold deadline : Nat) :
    List ConfirmEvent → (Nat → Confirmation) → ReadyOutcome × (Nat → Confirmation)
  | [], st => (ReadyOutcome.timedOut (pendingOf ps st), st)
  | ev :: rest, st =>
    if deadline ≤ ev.t then
      (ReadyOutcome.timedOut (pendingOf ps st), st)
    else if ev.player ∈ ps then
      if ev.accept then
        if threshold ≤ (acceptedOf ps (setConf st ev.player Confirmation.accepted)).length then
          (ReadyOutcome.validated, setConf st ev.player Confirmation.accepted)
        else
          readyCheckAux ps threshold deadline rest (setConf st ev.player Confirmation.accepted)
      else
        (ReadyOutcome.cancelled (declinedOf ps (setConf st ev.player Confirmation.declined)),
          setConf st ev.player Confirmation.declined)
    else
      readyCheckAux ps threshold deadline rest st

/-- Modelled from the spec: `checkmark_validation` run from the initial
all-`pending` confirmation table, as the coordinator starts it. -/
def checkmark_validation (ps : List Nat) (threshold deadline : Nat)
    (evs : List ConfirmEvent) : ReadyOutcome × (Nat → Confirmation) :=
  readyCheckAux ps threshold deadline evs (fun _ => Confirmation.pending)

/-- Modelled from the spec: the first reserved participant to decline
before the deadline, scanning the event list in order. -/
def firstDecliner (ps : List Nat) (deadline : Nat) : List ConfirmEvent → Option Nat
  | [] => none
  | ev :: rest =>
    if deadline ≤ ev.t then none
    else if ev.player ∈ ps ∧ ev.accept = false then some ev.player
    else firstDecliner ps deadline rest

/-- Entries of the pool belonging to one channel (the `GameQueue` the cog
builds for `ctx.channel.id`). -/
def channelEntries (pool : List Entry) (c : Nat) : List Entry :=
  pool.filter (fun e => decide (e.channel = c))

/-- Modelled from the spec: net waiting-pool effect of
`game_queue.validate_ready_check` — all ten players leave every queue. -/
def resolveValidated (pool : List Entry) (ps : List Nat) : List Entry :=
  pool.filter (fun e => decide (e.player ∉ ps))

/-- Modelled from the spec: net waiting-pool effect of
`game_queue.cancel_ready_check` called with a `channel_id` — the drop set
leaves only the proposing channel's queue, every other reserved entry is
back in place. -/
def resolveCancelled (pool : List Entry) (c : Nat) (d : List Nat) : List Entry :=
  pool.filter (fun e => decide (¬(e.player ∈ d ∧ e.channel = c)))

/-- Modelled from the spec: net waiting-pool effect of
`game_queue.cancel_ready_check` called with a `server_id` — the drop set
leaves every queue globally, every other reserved entry is back in place. -/
def resolveTimedOut (pool : List Entry) (d : List Nat) : List Entry :=
  pool.filter (fun e => decide (e.player ∉ d))

/-- Observable side effects of the queue cog, in program order.
`sendMessage` stands for any `ctx.send`, `startReadyCheck` for
`game_queue.start_ready_check`, `sendQueue` for `self.send_queue`,
`checkValidation ps th tl` records the call
`checkmark_validation(..., validation_threshold=th, timeout=tl)`,
`commitGame` for the successful database commit of the game,
`validateReadyCheck` for `game_queue.validate_ready_check`,
`cancelReadyCheckChannel d c` / `cancelReadyCheckGlobal d` for
`game_queue.cancel_ready_check` with a `channel_id` / `server_id`,
`reportNotStarted w` for the "best match had a side with winrate w and was
not started" message, `reportAlreadyScored` for the already-scored reply of
`!won`, and `scoreGame` for `matchmaking_logic.score_game_from_winning_player`. -/
inductive Effect where
  | sendMessage
  | startReadyCheck (players : List Nat)
  | sendQueue
  | checkValidation (players : List Nat) (threshold : Nat) (timeout : Nat)
  | commitGame
  | validateReadyCheck
  | cancelReadyCheckChannel (toDrop : List Nat) (channel : Nat)
  | cancelReadyCheckGlobal (toDrop : List Nat)
  | reportNotStarted (winrate : ℚ)
  | reportAlreadyScored
  | scoreGame
deriving DecidableEq, Repr

/-- Result of one `run_matchmaking_logic` invocation: the effect trace and
the final waiting pool, either completing normally (`ok`) or propagating a
persistence error raised while committing the game (`persistError`). -/
inductive MMResult where
  | ok (trace : List Effect) (pool : List Entry)
  | persistError (trace : List Effect) (pool : List Entry)
deriving DecidableEq, Repr

/-- The effect trace of a result. -/
def MMResult.trace : MMResult → List Effect
  | MMResult.ok tr _ => tr
  | MMResult.persistError tr _ => tr

/-- The final waiting pool of a result. -/
def MMResult.pool : MMResult → List Entry
  | MMResult.ok _ p => p
  | MMResult.persistError _ p => p

/-- Prepend earlier effects of the current round to a recursive result. -/
def MMResult.prepend (es : List Effect) : MMResult → MMResult
  | MMResult.ok tr p => MMResult.ok (es ++ tr) p
  | MMResult.persistError tr p => MMResult.persistError (es ++ tr) p

/-- Embedding of `QueueCog.run_matchmaking_logic` (queue_cog.py lines
57-143).  `find_best_game` is the matchmaking search applied to the
channel's queue; `c` is `ctx.channel.id`; `persistOk` tells whether the
database commit of the game succeeds; `checks` supplies the confirmation
events of each successive ready check; `fuel` bounds the recursion depth
(the Python code recurses unboundedly — termination is proved separately).
Each round: no candidate returns immediately; a candidate with
`matchmaking_score < 0.2` is announced, its players reserved, and the
ready check run with threshold 10 and timeout 3*60; `ready = True` commits
the game then validates the ready check, `ready = False` drops the
decliners from the proposing channel and recurses, `ready = None` drops
the non-responders globally and recurses; a candidate with score ≥ 0.2 is
reported as not started with predicted winrate 0.5 + score. -/
def run_matchmaking_logic (find_best_game : List Entry → Option Game) (c : Nat)
    (persistOk : Bool) :
    Nat → List (List ConfirmEvent) → List Entry → Option MMResult
  | 0, _, _ => none
  | fuel + 1, checks, pool =>
    match find_best_game (channelEntries pool c) with
    | none => some (MMResult.ok [] pool)
    | some game =>
      if game.matchmaking_score < mkRat 1 5 then
        match checkmark_validation game.player_ids_list 10 (3 * 60) (checks.headD []) with
        | (ReadyOutcome.validated, _) =>
          if persistOk then
            some (MMResult.ok
              [Effect.sendMessage, Effect.startReadyCheck game.player_ids_list,
                Effect.sendQueue, Effect.checkValidation game.player_ids_list 10 (3 * 60),
                Effect.commitGame, Effect.validateReadyCheck, Effect.sendMessage]
              (resolveValidated pool game.player_ids_list))
          else
            some (MMResult.persistError
              [Effect.sendMessage, Effect.startReadyCheck game.player_ids_list,
                Effect.sendQueue, Effect.checkValidation game.player_ids_list 10 (3 * 60)]
              pool)
        | (ReadyOutcome.cancelled d, _) =>
          (run_matchmaking_logic find_best_game c persistOk fuel checks.tail
              (resolveCancelled pool c d)).map
            (MMResult.prepend
              [Effect.sendMessage, Effect.startReadyCheck game.player_ids_list,
                Effect.sendQueue, Effect.checkValidation game.player_ids_list 10 (3 * 60),
                Effect.cancelReadyCheckChannel d c, Effect.sendMessage])
        | (ReadyOutcome.timedOut d, _) =>
          (run_matchmaking_logic find_best_game c persistOk fuel checks.tail
              (resolveTimedOut pool d)).map
            (MMResult.prepend
              [Effect.sendMessage, Effect.startReadyCheck game.player_ids_list,
                Effect.sendQueue, Effect.checkValidation game.player_ids_list 10 (3 * 60),
                Effect.cancelReadyCheckGlobal d, Effect.sendMessage])
      else
        some (MMResult.ok [Effect.reportNotStarted (mkRat 1 2 + game.matchmaking_score)] pool)

/-- A contest record as the `!won` / `!cancel` commands read it: the
winner side, or none while unscored. -/
structure GameRec where
  id : Nat
  winner : Option Nat
deriving DecidableEq, Repr

/-- Embedding of `QueueCog.won` (queue_cog.py lines 194-212).  `lastGame`
is the participant's most recent game as `get_last_game` returns it;
`scorer` is the external `score_game_from_winning_player`.  If the last
game exists and already has a winner, the command replies that it was
already scored and returns without scoring; otherwise it invokes the
scorer. -/
def won (scorer : Option GameRec → Option GameRec) (lastGame : Option GameRec) :
    List Effect × Option GameRec :=
  match lastGame with
  | some g =>
    if g.winner.isSome then ([Effect.reportAlreadyScored], some g)
    else ([Effect.scoreGame], scorer (some g))
  | none => ([Effect.scoreGame], scorer none)

/-- Embedding of `QueueCog.cancel_game` (queue_cog.py lines 216-232).  If
the last game exists and already has a winner, the command replies and
returns; otherwise the body ends after a TODO comment — no deletion of the
record is performed. -/
def cancel_game (lastGame : Option GameRec) : List Effect × Option GameRec :=
  match lastGame with
  | some g =>
    if g.winner.isSome then ([Effect.sendMessage], some g)
    else ([], some g)
  | none => ([], none)

/-! ### Helper lemmas about the ready-check state machine -/

theorem setConf_same (st : Nat → Confirmation) (p : Nat) (v : Confirmation) :
    setConf st p v p = v := by
  simp [setConf]

theorem setConf_ne (st : Nat → Confirmation) (p : Nat) (v : Confirmation)
    {q : Nat} (h : q ≠ p) : setConf st p v q = st q := by
  simp [setConf, h]

theorem mem_pendingOf {ps : List Nat} {st : Nat → Confirmation} {q : Nat} :
    q ∈ pendingOf ps st ↔ q ∈ ps ∧ st q = Confirmation.pending := by
  simp [pendingOf, List.mem_filter]

theorem mem_acceptedOf {ps : List Nat} {st : Nat → Confirmation} {q : Nat} :
    q ∈ acceptedOf ps st ↔ q ∈ ps ∧ st q = Confirmation.accepted := by
  simp [acceptedOf, List.mem_filter]

theorem mem_declinedOf {ps : List Nat} {st : Nat → Confirmation} {q : Nat} :
    q ∈ declinedOf ps st ↔ q ∈ ps ∧ st q = Confirmation.declined := by
  simp [declinedOf, List.mem_filter]

theorem pending_add_accepted_length (ps : List Nat) (st : Nat → Confirmation)
    (h : ∀ p ∈ ps, st p ≠ Confirmation.declined) :
    (pendingOf ps st).length + (acceptedOf ps st).length = ps.length := by
  induction ps with
  | nil => simp [pendingOf, acceptedOf]
  | cons a t ih =>
    have ht : ∀ p ∈ t, st p ≠ Confirmation.declined := fun p hp => h p (List.mem_cons_of_mem a hp)
    have ha := h a (List.mem_cons_self a t)
    have iht := ih ht
    simp only [pendingOf, acceptedOf, List.filter_cons] at *
    cases hsa : st a with
    | pending => simp only [hsa, decide_True, decide_False, if_true, if_false, List.length_cons,
        reduceCtorEq, List.length]; omega
    | accepted => simp only [hsa, decide_True, decide_False, if_true, if_false, List.length_cons,
        reduceCtorEq, List.length]; omega
    | declined => exact absurd hsa ha

theorem filter_eq_singleton_of_nodup {l : List Nat} {f : Nat → Bool} {x : Nat}
    (hnd : l.Nodup) (hx : x ∈ l) (hf : ∀ q ∈ l, f q = true ↔ q = x) :
    l.filter f = [x] := by
  induction l with
  | nil => cases hx
  | cons a t ih =>
    rcases List.nodup_cons.mp hnd with ⟨hat, hndt⟩
    by_cases hax : a = x
    · subst hax
      have hfa : f a = true := (hf a (List.mem_cons_self a t)).mpr rfl
      have hnone : t.filter f = [] := by
        apply List.filter_eq_nil_iff.mpr
        intro q hq hfq
        exact hat (((hf q (List.mem_cons_of_mem a hq)).mp hfq) ▸ hq)
      simp [List.filter_cons, hfa, hnone]
    · have hfa : ¬ f a = true := fun hfq => hax ((hf a (List.mem_cons_self a t)).mp hfq)
      have hxt : x ∈ t := by
        rcases List.mem_cons.mp hx with h | h
        · exact absurd h.symm hax
        · exact h
      have hft : ∀ q ∈ t, f q = true ↔ q = x := fun q hq => hf q (List.mem_cons_of_mem a hq)
      simp [List.filter_cons, hfa, ih hndt hxt hft]

/-- The cancellation drop set always contains the decliner: it is non-empty. -/
theorem readyCheckAux_cancelled_ne_nil {ps : List Nat} {th dl : Nat}
    {evs : List ConfirmEvent} {st st' : Nat → Confirmation} {d : List Nat}
    (hst : ∀ q, st q ≠ Confirmation.declined)
    (h : readyCheckAux ps th dl evs st = (ReadyOutcome.cancelled d, st')) : d ≠ [] := by
  induction evs generalizing st with
  | nil => simp only [readyCheckAux, Prod.mk.injEq] at h; exact absurd h.1 (by simp)
  | cons ev rest ih =>
    simp only [readyCheckAux] at h
    split_ifs at h with hdl hmem hacc hthr
    · simp only [Prod.mk.injEq] at h; exact absurd h.1 (by simp)
    · simp only [Prod.mk.injEq] at h; exact absurd h.1 (by simp)
    · exact ih (fun q => by
        by_cases hq : q = ev.player
        · subst hq; simp [setConf_same]
        · rw [setConf_ne _ _ _ hq]; exact hst q) h
    · simp only [Prod.mk.injEq, ReadyOutcome.cancelled.injEq] at h
      intro hnil
      have : ev.player ∈ declinedOf ps (setConf st ev.player Confirmation.declined) :=
        mem_declinedOf.mpr ⟨hmem, setConf_same st ev.player Confirmation.declined⟩
      rw [h.1] at this
      rw [hnil] at this
      cases this
    · exact ih hst h

/-- When the check is cancelled from a declination-free state, the drop set
is exactly the singleton of the first reserved participant to decline. -/
theorem readyCheckAux_cancelled_firstDecliner {ps : List Nat} {th dl : Nat}
    {evs : List ConfirmEvent} {st st' : Nat → Confirmation} {d : List Nat}
    (hnd : ps.Nodup) (hst : ∀ q, st q ≠ Confirmation.declined)
    (h : readyCheckAux ps th dl evs st = (ReadyOutcome.cancelled d, st')) :
    ∃ x, firstDecliner ps dl evs = some x ∧ d = [x] := by
  induction evs generalizing st with
  | nil => simp only [readyCheckAux, Prod.mk.injEq] at h; exact absurd h.1 (by simp)
  | cons ev rest ih =>
    simp only [readyCheckAux] at h
    split_ifs at h with hdl hmem hacc hthr
    · simp only [Prod.mk.injEq] at h; exact absurd h.1 (by simp)
    · simp only [Prod.mk.injEq] at h; exact absurd h.1 (by simp)
    · rcases ih (fun q => by
        by_cases hq : q = ev.player
        · subst hq; simp [setConf_same]
        · rw [setConf_ne _ _ _ hq]; exact hst q) h with ⟨x, hfd, hd⟩
      refine ⟨x, ?_, hd⟩
      simp only [firstDecliner, if_neg hdl, hmem, hacc]
      simpa using hfd
    · simp only [Prod.mk.injEq, ReadyOutcome.cancelled.injEq] at h
      refine ⟨ev.player, ?_, ?_⟩
      · simp [firstDecliner, if_neg hdl, hmem, hacc]
      · rw [← h.1]
        apply filter_eq_singleton_of_nodup hnd hmem
        intro q hq
        constructor
        · intro hfq
          by_contra hne
          rw [decide_eq_true_iff, setConf_ne _ _ _ hne] at hfq
          exact hst q hfq
        · intro hqe; subst hqe; simp [setConf_same]
    · rcases ih hst h with ⟨x, hfd, hd⟩
      refine ⟨x, ?_, hd⟩
      simp only [firstDecliner, if_neg hdl]
      have : ¬(ev.player ∈ ps ∧ ev.accept = false) := fun hc => hmem hc.1
      simp only [this, if_false]
      exact hfd

/-- Validation is reached only with the accepted count at the threshold and
nobody declined. -/
theorem readyCheckAux_validated {ps : List Nat} {th dl : Nat}
    {evs : List ConfirmEvent} {st st' : Nat → Confirmation}
    (hst : ∀ q, st q ≠ Confirmation.declined)
    (h : readyCheckAux ps th dl evs st = (ReadyOutcome.validated, st')) :
    th ≤ (acceptedOf ps st').length ∧ ∀ q, st' q ≠ Confirmation.declined := by
  induction evs generalizing st with
  | nil => simp only [readyCheckAux, Prod.mk.injEq] at h; exact absurd h.1 (by simp)
  | cons ev rest ih =>
    simp only [readyCheckAux] at h
    split_ifs at h with hdl hmem hacc hthr
    · simp only [Prod.mk.injEq] at h; exact absurd h.1 (by simp)
    · simp only [Prod.mk.injEq] at h
      have hst' : ∀ q, setConf st ev.player Confirmation.accepted q ≠ Confirmation.declined :=
        fun q => by
          by_cases hq : q = ev.player
          · subst hq; simp [setConf_same]
          · rw [setConf_ne _ _ _ hq]; exact hst q
      exact ⟨h.2 ▸ hthr, h.2 ▸ hst'⟩
    · exact ih (fun q => by
        by_cases hq : q = ev.player
        · subst hq; simp [setConf_same]
        · rw [setConf_ne _ _ _ hq]; exact hst q) h
    · simp only [Prod.mk.injEq] at h; exact absurd h.1 (by simp)
    · exact ih hst h

/-- On a timeout the drop set is exactly the participants still pending in
the final confirmation table. -/
theorem readyCheckAux_timedOut {ps : List Nat} {th dl : Nat}
    {evs : List ConfirmEvent} {st st' : Nat → Confirmation} {d : List Nat}
    (h : readyCheckAux ps th dl evs st = (ReadyOutcome.timedOut d, st')) :
    d = pendingOf ps st' := by
  induction evs generalizing st with
  | nil =>
    simp only [readyCheckAux, Prod.mk.injEq, ReadyOutcome.timedOut.injEq] at h
    rw [← h.1, h.2]
  | cons ev rest ih =>
    simp only [readyCheckAux] at h
    split_ifs at h with hdl hmem hacc hthr
    · simp only [Prod.mk.injEq, ReadyOutcome.timedOut.injEq] at h
      rw [← h.1, h.2]
    · simp only [Prod.mk.injEq] at h; exact absurd h.1 (by simp)
    · exact ih h
    · simp only [Prod.mk.injEq] at h; exact absurd h.1 (by simp)
    · exact ih h

/-- A timeout reached from a declination-free state whose accepted count is
below the threshold has a non-empty drop set, provided the threshold does
not exceed the roster size. -/
theorem readyCheckAux_timedOut_ne_nil {ps : List Nat} {th dl : Nat}
    {evs : List ConfirmEvent} {st st' : Nat → Confirmation} {d : List Nat}
    (hst : ∀ q, st q ≠ Confirmation.declined)
    (hacc : (acceptedOf ps st).length < th) (hth : th ≤ ps.length)
    (h : readyCheckAux ps th dl evs st = (ReadyOutcome.timedOut d, st')) : d ≠ [] := by
  induction evs generalizing st with
  | nil =>
    simp only [readyCheckAux, Prod.mk.injEq, ReadyOutcome.timedOut.injEq] at h
    have hsum := pending_add_accepted_length ps st (fun p _ => hst p)
    have : 0 < (pendingOf ps st).length := by omega
    rw [← h.1]
    exact List.ne_nil_of_length_pos this
  | cons ev rest ih =>
    simp only [readyCheckAux] at h
    split_ifs at h with hdl hmem hacc' hthr
    · simp only [Prod.mk.injEq, ReadyOutcome.timedOut.injEq] at h
      have hsum := pending_add_accepted_length ps st (fun p _ => hst p)
      have : 0 < (pendingOf ps st).length := by omega
      rw [← h.1]
      exact List.ne_nil_of_length_pos this
    · simp only [Prod.mk.injEq] at h; exact absurd h.1 (by simp)
    · exact ih (fun q => by
        by_cases hq : q = ev.player
        · subst hq; simp [setConf_same]
        · rw [setConf_ne _ _ _ hq]; exact hst q) (Nat.lt_of_not_le hthr) h
    · simp only [Prod.mk.injEq] at h; exact absurd h.1 (by simp)
    · exact ih hst hacc h

/-! ### Claim theorems about the ready check and the contest commands -/

/-- Claim C2: when a ready check ends with a decline, the drop set is
exactly the decliner observed at cancellation time (the first reserved
participant to decline — a later decline does not enlarge it), the drop
set is removed only from the proposing channel's waiting pool, and every
other entry — other participants, and the decliner's entries in other
channels — is still in the queue. -/
theorem decline_first_wins {ps : List Nat} {th dl : Nat} {evs : List ConfirmEvent}
    {d : List Nat} {st : Nat → Confirmation}
    (hnd : ps.Nodup)
    (h : checkmark_validation ps th dl evs = (ReadyOutcome.cancelled d, st)) :
    (∃ x, firstDecliner ps dl evs = some x ∧ d = [x]) ∧
    (∀ (pool : List Entry) (c : Nat) (e : Entry),
      e ∈ resolveCancelled pool c d ↔ e ∈ pool ∧ ¬(e.player ∈ d ∧ e.channel = c)) := by
  simp only [checkmark_validation] at h
  refine ⟨readyCheckAux_cancelled_firstDecliner hnd (fun _ => by simp) h, ?_⟩
  intro pool c e
  simp only [resolveCancelled, List.mem_filter, decide_eq_true_eq]

/-- Closed witness for `decline_first_wins`: players 1 and 2 both decline,
player 1 first; the drop set is just player 1, and only player 1's entry
in the proposing channel 0 is removed from the pool. -/
theorem decline_first_wins_witness :
    (∃ x, firstDecliner [1, 2] 180 [⟨5, 1, false⟩, ⟨9, 2, false⟩] = some x ∧ [1] = [x]) ∧
    (∀ (pool : List Entry) (c : Nat) (e : Entry),
      e ∈ resolveCancelled pool c [1] ↔ e ∈ pool ∧ ¬(e.player ∈ [1] ∧ e.channel = c)) :=
  @decline_first_wins [1, 2] 10 180 [⟨5, 1, false⟩, ⟨9, 2, false⟩] [1]
    (setConf (fun _ => Confirmation.pending) 1 Confirmation.declined) (by decide) rfl

/-- Claim C3: when a ready check times out, the drop set is exactly the
participants still pending at the deadline, an accepted participant is
never in it, and the drop is global — every entry of a dropped participant
is removed from every channel's pool, while every other entry stays. -/
theorem timeout_drops_pending_globally {ps : List Nat} {th dl : Nat}
    {evs : List ConfirmEvent} {d : List Nat} {st : Nat → Confirmation}
    (h : checkmark_validation ps th dl evs = (ReadyOutcome.timedOut d, st)) :
    d = pendingOf ps st ∧
    (∀ p ∈ ps, st p = Confirmation.accepted → p ∉ d) ∧
    (∀ (pool : List Entry) (e : Entry),
      e ∈ resolveTimedOut pool d ↔ e ∈ pool ∧ e.player ∉ d) := by
  simp only [checkmark_validation] at h
  have hd := readyCheckAux_timedOut h
  refine ⟨hd, ?_, ?_⟩
  · intro p _ hacc hmem
    rw [hd] at hmem
    rcases mem_pendingOf.mp hmem with ⟨_, hpend⟩
    rw [hacc] at hpend
    cases hpend
  · intro pool e
    simp [resolveTimedOut, List.mem_filter]

/-- Closed witness for `timeout_drops_pending_globally`: player 1 accepts,
player 2 never answers; the drop set is just player 2 and only player 2's
entries are removed, from every channel. -/
theorem timeout_drops_pending_globally_witness :
    ([2] : List Nat) = pendingOf [1, 2]
        (setConf (fun _ => Confirmation.pending) 1 Confirmation.accepted) ∧
    (∀ p ∈ [1, 2], setConf (fun _ => Confirmation.pending) 1 Confirmation.accepted p
        = Confirmation.accepted → p ∉ [2]) ∧
    (∀ (pool : List Entry) (e : Entry),
      e ∈ resolveTimedOut pool [2] ↔ e ∈ pool ∧ e.player ∉ [2]) :=
  @timeout_drops_pending_globally [1, 2] 10 180 [⟨5, 1, true⟩] [2]
    (setConf (fun _ => Confirmation.pending) 1 Confirmation.accepted) rfl

/-- Claim C9: whenever the ready check resolves with a decline, the
returned drop set is non-empty, so reading its first element for the
cancellation announcement is always defined. -/
theorem decline_drop_set_nonempty {ps : List Nat} {th dl : Nat}
    {evs : List ConfirmEvent} {d : List Nat} {st : Nat → Confirmation}
    (h : checkmark_validation ps th dl evs = (ReadyOutcome.cancelled d, st)) :
    d ≠ [] ∧ d.head?.isSome := by
  simp only [checkmark_validation] at h
  have hne := readyCheckAux_cancelled_ne_nil (fun _ => by simp) h
  refine ⟨hne, ?_⟩
  cases d with
  | nil => exact absurd rfl hne
  | cons a t => simp

/-- Closed witness for `decline_drop_set_nonempty`: player 2 declines after
player 1 accepted; the drop set `[2]` is non-empty with a defined head. -/
theorem decline_drop_set_nonempty_witness :
    ([2] : List Nat) ≠ [] ∧ ([2] : List Nat).head?.isSome :=
  @decline_drop_set_nonempty [1, 2] 10 180 [⟨5, 1, true⟩, ⟨9, 2, false⟩] [2]
    (setConf (setConf (fun _ => Confirmation.pending) 1 Confirmation.accepted)
      2 Confirmation.declined) rfl

/-- Claim C6: when a participant invokes the win-report command and their
last game already has a winner, the command reports it as already scored
and returns: the external scorer is never invoked and the contest record
is returned unchanged. -/
theorem won_already_scored (scorer : Option GameRec → Option GameRec) (g : GameRec)
    (w : Nat) (hw : g.winner = some w) :
    won scorer (some g) = ([Effect.reportAlreadyScored], some g) ∧
    Effect.scoreGame ∉ (won scorer (some g)).1 := by
  simp [won, hw]

/-- Closed witness for `won_already_scored`: a game already scored for side
0 is reported as already scored and left unchanged, whatever the scorer. -/
theorem won_already_scored_witness :
    won (fun x => x) (some ⟨3, some 0⟩) = ([Effect.reportAlreadyScored], some ⟨3, some 0⟩) ∧
    Effect.scoreGame ∉ (won (fun x => x) (some ⟨3, some 0⟩)).1 :=
  won_already_scored (fun x => x) ⟨3, some 0⟩ 0 rfl

/-- Claim C7 (code divergence): on an unscored last game the `!cancel`
command performs no side effect and leaves the contest record in place —
the deletion promised by its own docstring and TODO comment (queue_cog.py
lines 220 and 232) is not implemented. -/
theorem cancel_game_leaves_unscored_game :
    cancel_game (some ⟨7, none⟩) = ([], some ⟨7, none⟩) ∧
    (cancel_game (some ⟨7, none⟩)).2 = some ⟨7, none⟩ := by
  constructor <;> rfl

/-! ### Claim theorems about the matchmaking orchestration -/

theorem MMResult.trace_prepend (es : List Effect) (m : MMResult) :
    (MMResult.prepend es m).trace = es ++ m.trace := by
  cases m <;> rfl

/-- Claim C10: when the search returns no candidate, or a candidate with
imbalance score at or above 0.2, the orchestrator leaves every waiting
pool unchanged — the run returns immediately with the pool it was given,
a trace holding no reservation, drop, or re-queue effect (empty, or just
the not-started report). -/
theorem unfair_or_no_candidate_fixes_pool
    (fb : List Entry → Option Game) (c : Nat) (pOk : Bool) (fuel : Nat)
    (checks : List (List ConfirmEvent)) (pool : List Entry) :
    (fb (channelEntries pool c) = none →
      run_matchmaking_logic fb c pOk (fuel + 1) checks pool = some (MMResult.ok [] pool)) ∧
    (∀ game, fb (channelEntries pool c) = some game →
      mkRat 1 5 ≤ game.matchmaking_score →
      run_matchmaking_logic fb c pOk (fuel + 1) checks pool =
        some (MMResult.ok [Effect.reportNotStarted (mkRat 1 2 + game.matchmaking_score)]
          pool)) := by
  constructor
  · intro h
    simp only [run_matchmaking_logic, h]
  · intro game hg hsc
    simp only [run_matchmaking_logic, hg, if_neg (not_lt.mpr hsc)]

/-- Closed witness for `unfair_or_no_candidate_fixes_pool`: with an empty
pool the search finds nothing and the run returns the pool untouched. -/
theorem unfair_or_no_candidate_fixes_pool_witness :
    run_matchmaking_logic (fun _ => none) 0 true 1 [] [⟨1, 0, 0⟩] =
      some (MMResult.ok [] [⟨1, 0, 0⟩]) :=
  (unfair_or_no_candidate_fixes_pool (fun _ => none) 0 true 0 [] [⟨1, 0, 0⟩]).1 rfl

/-- Claim C1: for the candidate returned by the search, the orchestrator
starts a ready check if and only if the candidate's imbalance score is
strictly below 0.2; at 0.2 or above no ready check is started and the run
only reports the best candidate's predicted winrate (0.5 + score) as not
started. -/
theorem ready_check_started_iff_fair
    (fb : List Entry → Option Game) (c : Nat) (pOk : Bool) (fuel : Nat)
    (checks : List (List ConfirmEvent)) (pool : List Entry) (game : Game) (r : MMResult)
    (hg : fb (channelEntries pool c) = some game)
    (hrun : run_matchmaking_logic fb c pOk (fuel + 1) checks pool = some r) :
    (Effect.startReadyCheck game.player_ids_list ∈ r.trace ↔
      game.matchmaking_score < mkRat 1 5) ∧
    (mkRat 1 5 ≤ game.matchmaking_score →
      r = MMResult.ok [Effect.reportNotStarted (mkRat 1 2 + game.matchmaking_score)] pool) := by
  simp only [run_matchmaking_logic, hg] at hrun
  by_cases hsc : game.matchmaking_score < mkRat 1 5
  · rw [if_pos hsc] at hrun
    have hmem : Effect.startReadyCheck game.player_ids_list ∈ r.trace := by
      rcases ho : checkmark_validation game.player_ids_list 10 (3 * 60) (checks.headD [])
        with ⟨o, stx⟩
      rw [ho] at hrun
      cases o with
      | validated =>
        split_ifs at hrun with hp <;>
          · rw [Option.some.injEq] at hrun
            rw [← hrun]
            simp [MMResult.trace]
      | cancelled d =>
        rcases Option.map_eq_some'.mp hrun with ⟨r', _, hr⟩
        rw [← hr, MMResult.trace_prepend]
        simp
      | timedOut d =>
        rcases Option.map_eq_some'.mp hrun with ⟨r', _, hr⟩
        rw [← hr, MMResult.trace_prepend]
        simp
    exact ⟨⟨fun _ => hsc, fun _ => hmem⟩, fun hsc' => absurd hsc (not_lt.mpr hsc')⟩
  · rw [if_neg hsc] at hrun
    rw [Option.some.injEq] at hrun
    rw [← hrun]
    constructor
    · simp [MMResult.trace, hsc]
    · intro _
      rfl

/-- A one-player search used by the concrete witness runs: it returns a
fair candidate (score 0.1) as long as the channel queue is non-empty. -/
def fbW : List Entry → Option Game :=
  fun q => if q = [] then none else some ⟨[1], mkRat 1 10⟩

/-- The effect trace of the witness run: one ready check, declined by
player 1, followed by an empty re-run. -/
def trW : List Effect :=
  [Effect.sendMessage, Effect.startReadyCheck [1], Effect.sendQueue,
    Effect.checkValidation [1] 10 (3 * 60), Effect.cancelReadyCheckChannel [1] 0,
    Effect.sendMessage]

/-- Closed witness for `ready_check_started_iff_fair`: a candidate with
score 0.1 < 0.2 does start a ready check. -/
theorem ready_check_started_iff_fair_witness :
    (Effect.startReadyCheck [1] ∈ (MMResult.ok trW []).trace ↔ mkRat 1 10 < mkRat 1 5) ∧
    (mkRat 1 5 ≤ mkRat 1 10 →
      MMResult.ok trW [] =
        MMResult.ok [Effect.reportNotStarted (mkRat 1 2 + mkRat 1 10)] [⟨1, 0, 0⟩]) :=
  ready_check_started_iff_fair fbW 0 true 1 [[⟨0, 1, false⟩]] [⟨1, 0, 0⟩]
    ⟨[1], mkRat 1 10⟩ (MMResult.ok trW []) rfl rfl

/-- Every `checkmark_validation` call issued by the orchestrator carries
threshold 10 and timeout 3 * 60, mirroring queue_cog.py lines 93-94. -/
theorem run_checkValidation_args (fb : List Entry → Option Game) (c : Nat) (pOk : Bool) :
    ∀ (fuel : Nat) (checks : List (List ConfirmEvent)) (pool : List Entry) (r : MMResult),
      run_matchmaking_logic fb c pOk fuel checks pool = some r →
      ∀ ps t t', Effect.checkValidation ps t t' ∈ r.trace → t = 10 ∧ t' = 3 * 60 := by
  intro fuel
  induction fuel with
  | zero =>
    intro checks pool r h
    simp [run_matchmaking_logic] at h
  | succ n ih =>
    intro checks pool r h
    simp only [run_matchmaking_logic] at h
    rcases hfb : fb (channelEntries pool c) with _ | game
    · simp only [hfb, Option.some.injEq] at h
      rw [← h]
      intro ps t t' hmem
      simp [MMResult.trace] at hmem
    · simp only [hfb] at h
      by_cases hsc : game.matchmaking_score < mkRat 1 5
      · rw [if_pos hsc] at h
        rcases ho : checkmark_validation game.player_ids_list 10 (3 * 60) (checks.headD [])
          with ⟨o, stx⟩
        rw [ho] at h
        cases o with
        | validated =>
          split_ifs at h with hp <;>
          · rw [Option.some.injEq] at h
            rw [← h]
            intro ps t t' hmem
            simp only [MMResult.trace, List.mem_cons, List.not_mem_nil, or_false,
              reduceCtorEq, false_or, Effect.checkValidation.injEq] at hmem
            exact ⟨hmem.2.1, hmem.2.2⟩
        | cancelled d =>
          rcases Option.map_eq_some'.mp h with ⟨r', hr', hre⟩
          intro ps t t' hmem
          rw [← hre, MMResult.trace_prepend] at hmem
          rcases List.mem_append.mp hmem with hin | hin
          · simp only [List.mem_cons, List.not_mem_nil, or_false, reduceCtorEq, false_or,
              Effect.checkValidation.injEq] at hin
            exact ⟨hin.2.1, hin.2.2⟩
          · exact ih checks.tail _ r' hr' ps t t' hin
        | timedOut d =>
          rcases Option.map_eq_some'.mp h with ⟨r', hr', hre⟩
          intro ps t t' hmem
          rw [← hre, MMResult.trace_prepend] at hmem
          rcases List.mem_append.mp hmem with hin | hin
          · simp only [List.mem_cons, List.not_mem_nil, or_false, reduceCtorEq, false_or,
              Effect.checkValidation.injEq] at hin
            exact ⟨hin.2.1, hin.2.2⟩
          · exact ih checks.tail _ r' hr' ps t t' hin
      · rw [if_neg hsc, Option.some.injEq] at h
        rw [← h]
        intro ps t t' hmem
        simp [MMResult.trace] at hmem

/-- Claim C4: the orchestrator runs every ready check with validation
threshold 10 and a deadline of 3 * 60 = 180 time units, and a ready check
reaches the Validated outcome only when the accepted count reaches 10 —
with a ten-participant roster, only when every reserved participant
accepted — and no participant declined. -/
theorem validated_only_unanimous_and_check_params
    (fb : List Entry → Option Game) (c : Nat) (pOk : Bool) (fuel : Nat)
    (checks : List (List ConfirmEvent)) (pool : List Entry) (r : MMResult)
    (hrun : run_matchmaking_logic fb c pOk fuel checks pool = some r) :
    (∀ ps t t', Effect.checkValidation ps t t' ∈ r.trace → t = 10 ∧ t' = 3 * 60) ∧
    (∀ (ps : List Nat) (evs : List ConfirmEvent) (st : Nat → Confirmation),
      checkmark_validation ps 10 (3 * 60) evs = (ReadyOutcome.validated, st) →
      10 ≤ (acceptedOf ps st).length ∧
      (ps.length = 10 → ∀ p ∈ ps, st p = Confirmation.accepted) ∧
      (∀ p ∈ ps, st p ≠ Confirmation.declined)) := by
  refine ⟨run_checkValidation_args fb c pOk fuel checks pool r hrun, ?_⟩
  intro ps evs st h
  simp only [checkmark_validation] at h
  have hv := readyCheckAux_validated (fun _ => by simp) h
  refine ⟨hv.1, ?_, fun p _ => hv.2 p⟩
  intro hlen p hp
  have hsub : List.Sublist (acceptedOf ps st) ps := List.filter_sublist ps
  have heq : acceptedOf ps st = ps := hsub.eq_of_length_le (by omega)
  have hpmem : p ∈ acceptedOf ps st := by rw [heq]; exact hp
  exact (mem_acceptedOf.mp hpmem).2

/-- Closed witness for `validated_only_unanimous_and_check_params`, on the
same concrete declined run as the C1 witness. -/
theorem validated_only_unanimous_and_check_params_witness :
    (∀ ps t t', Effect.checkValidation ps t t' ∈ (MMResult.ok trW []).trace →
      t = 10 ∧ t' = 3 * 60) ∧
    (∀ (ps : List Nat) (evs : List ConfirmEvent) (st : Nat → Confirmation),
      checkmark_validation ps 10 (3 * 60) evs = (ReadyOutcome.validated, st) →
      10 ≤ (acceptedOf ps st).length ∧
      (ps.length = 10 → ∀ p ∈ ps, st p = Confirmation.accepted) ∧
      (∀ p ∈ ps, st p ≠ Confirmation.declined)) :=
  validated_only_unanimous_and_check_params fbW 0 true 2 [[⟨0, 1, false⟩]] [⟨1, 0, 0⟩]
    (MMResult.ok trW []) rfl

/-- Checks that every `validateReadyCheck` effect in a trace immediately
follows a successful `commitGame` effect: the ready check is finalized
only after the contest record is persisted. -/
def commitThenValidate : List Effect → Bool
  | [] => true
  | Effect.validateReadyCheck :: _ => false
  | Effect.commitGame :: Effect.validateReadyCheck :: rest => commitThenValidate rest
  | _ :: rest => commitThenValidate rest

/-- Claim C5: in every completed run the Validated finalization
(`validateReadyCheck`, which drops the ten players) happens only
immediately after the game was committed to the store, and when
persistence fails no finalization and no commit effect ever appears — the
proposal is never silently treated as Validated. -/
theorem commit_precedes_validation
    (fb : List Entry → Option Game) (c : Nat) (pOk : Bool) (fuel : Nat)
    (checks : List (List ConfirmEvent)) (pool : List Entry) (r : MMResult)
    (hrun : run_matchmaking_logic fb c pOk fuel checks pool = some r) :
    commitThenValidate r.trace = true ∧
    (pOk = false →
      Effect.validateReadyCheck ∉ r.trace ∧ Effect.commitGame ∉ r.trace) := by
  revert hrun
  induction fuel generalizing checks pool r with
  | zero =>
    intro h
    simp [run_matchmaking_logic] at h
  | succ n ih =>
    intro h
    simp only [run_matchmaking_logic] at h
    rcases hfb : fb (channelEntries pool c) with _ | game
    · simp only [hfb, Option.some.injEq] at h
      rw [← h]
      exact ⟨rfl, fun _ => by simp [MMResult.trace]⟩
    · simp only [hfb] at h
      by_cases hsc : game.matchmaking_score < mkRat 1 5
      · rw [if_pos hsc] at h
        rcases ho : checkmark_validation game.player_ids_list 10 (3 * 60) (checks.headD [])
          with ⟨o, stx⟩
        rw [ho] at h
        cases o with
        | validated =>
          by_cases hp : pOk
          · rw [if_pos hp, Option.some.injEq] at h
            rw [← h]
            exact ⟨rfl, fun hpf => absurd hp (by simp [hpf])⟩
          · rw [if_neg hp, Option.some.injEq] at h
            rw [← h]
            exact ⟨rfl, fun _ => by simp [MMResult.trace]⟩
        | cancelled d =>
          rcases Option.map_eq_some'.mp h with ⟨r', hr', hre⟩
          have hih := ih checks.tail (resolveCancelled pool c d) r' hr'
          rw [← hre]
          constructor
          · rw [MMResult.trace_prepend]
            have hskip :
                commitThenValidate
                  ([Effect.sendMessage, Effect.startReadyCheck game.player_ids_list,
                    Effect.sendQueue, Effect.checkValidation game.player_ids_list 10 (3 * 60),
                    Effect.cancelReadyCheckChannel d c, Effect.sendMessage] ++ r'.trace) =
                commitThenValidate r'.trace := rfl
            rw [hskip]
            exact hih.1
          · intro hpf
            rw [MMResult.trace_prepend]
            have := hih.2 hpf
            simp only [List.mem_append, List.mem_cons, List.not_mem_nil, or_false]
            constructor
            · intro hc
              rcases hc with hc | hc
              · simp at hc
              · exact this.1 hc
            · intro hc
              rcases hc with hc | hc
              · simp at hc
              · exact this.2 hc
        | timedOut d =>
          rcases Option.map_eq_some'.mp h with ⟨r', hr', hre⟩
          have hih := ih checks.tail (resolveTimedOut pool d) r' hr'
          rw [← hre]
          constructor
          · rw [MMResult.trace_prepend]
            have hskip :
                commitThenValidate
                  ([Effect.sendMessage, Effect.startReadyCheck game.player_ids_list,
                    Effect.sendQueue, Effect.checkValidation game.player_ids_list 10 (3 * 60),
                    Effect.cancelReadyCheckGlobal d, Effect.sendMessage] ++ r'.trace) =
                commitThenValidate r'.trace := rfl
            rw [hskip]
            exact hih.1
          · intro hpf
            rw [MMResult.trace_prepend]
            have := hih.2 hpf
            simp only [List.mem_append, List.mem_cons, List.not_mem_nil, or_false]
            constructor
            · intro hc
              rcases hc with hc | hc
              · simp at hc
              · exact this.1 hc
            · intro hc
              rcases hc with hc | hc
              · simp at hc
              · exact this.2 hc
      · rw [if_neg hsc, Option.some.injEq] at h
        rw [← h]
        exact ⟨rfl, fun _ => by simp [MMResult.trace]⟩

/-- Closed witness for `commit_precedes_validation`: in the concrete
declined run the trace satisfies the commit-before-validate discipline. -/
theorem commit_precedes_validation_witness :
    commitThenValidate (MMResult.ok trW []).trace = true ∧
    (true = false →
      Effect.validateReadyCheck ∉ (MMResult.ok trW []).trace ∧
      Effect.commitGame ∉ (MMResult.ok trW []).trace) :=
  commit_precedes_validation fbW 0 true 2 [[⟨0, 1, false⟩]] [⟨1, 0, 0⟩]
    (MMResult.ok trW []) rfl

/-- The cancellation drop set only contains reserved participants. -/
theorem readyCheckAux_cancelled_subset {ps : List Nat} {th dl : Nat}
    {evs : List ConfirmEvent} {st st' : Nat → Confirmation} {d : List Nat}
    (h : readyCheckAux ps th dl evs st = (ReadyOutcome.cancelled d, st')) :
    ∀ x ∈ d, x ∈ ps := by
  induction evs generalizing st with
  | nil => simp only [readyCheckAux, Prod.mk.injEq] at h; exact absurd h.1 (by simp)
  | cons ev rest ih =>
    simp only [readyCheckAux] at h
    split_ifs at h with hdl hmem hacc hthr
    · simp only [Prod.mk.injEq] at h; exact absurd h.1 (by simp)
    · simp only [Prod.mk.injEq] at h; exact absurd h.1 (by simp)
    · exact ih h
    · simp only [Prod.mk.injEq, ReadyOutcome.cancelled.injEq] at h
      intro x hx
      rw [← h.1] at hx
      exact (mem_declinedOf.mp hx).1
    · exact ih h

/-- The timeout drop set only contains reserved participants. -/
theorem readyCheckAux_timedOut_subset {ps : List Nat} {th dl : Nat}
    {evs : List ConfirmEvent} {st st' : Nat → Confirmation} {d : List Nat}
    (h : readyCheckAux ps th dl evs st = (ReadyOutcome.timedOut d, st')) :
    ∀ x ∈ d, x ∈ ps := by
  have hd := readyCheckAux_timedOut h
  intro x hx
  rw [hd] at hx
  exact (mem_pendingOf.mp hx).1

/-- Removing a present element through `filter` strictly shrinks a list. -/
theorem length_filter_lt {α : Type} (f : α → Bool) {l : List α} {x : α}
    (hx : x ∈ l) (hfx : f x = false) : (l.filter f).length < l.length := by
  induction l with
  | nil => cases hx
  | cons a t ih =>
    rcases List.mem_cons.mp hx with rfl | hxt
    · simp only [List.filter_cons, hfx, Bool.false_eq_true, if_false, List.length_cons]
      exact Nat.lt_succ_of_le (List.length_filter_le f t)
    · cases hfa : f a
      · simp only [List.filter_cons, hfa, Bool.false_eq_true, if_false, List.length_cons]
        exact Nat.lt_succ_of_lt (ih hxt)
      · simp only [List.filter_cons, hfa, if_true, List.length_cons]
        exact Nat.succ_lt_succ (ih hxt)

/-- With a search that only proposes rosters of at least ten players drawn
from the queried queue, the orchestration completes once the fuel exceeds
the pool size: every cancelled or timed-out round strictly shrinks the
waiting pool. -/
theorem run_terminates (fb : List Entry → Option Game) (c : Nat) (pOk : Bool)
    (hfb : ∀ q g, fb q = some g → 10 ≤ g.player_ids_list.length ∧
      ∀ p ∈ g.player_ids_list, ∃ e ∈ q, e.player = p) :
    ∀ (fuel : Nat) (pool : List Entry) (checks : List (List ConfirmEvent)),
      pool.length < fuel →
      (run_matchmaking_logic fb c pOk fuel checks pool).isSome := by
  intro fuel
  induction fuel with
  | zero =>
    intro pool checks hlen
    exact absurd hlen (Nat.not_lt_zero _)
  | succ n ih =>
    intro pool checks hlen
    simp only [run_matchmaking_logic]
    rcases hg : fb (channelEntries pool c) with _ | game
    · simp
    · dsimp only
      by_cases hsc : game.matchmaking_score < mkRat 1 5
      · rw [if_pos hsc]
        rcases ho : checkmark_validation game.player_ids_list 10 (3 * 60) (checks.headD [])
          with ⟨o, stx⟩
        have ho' := ho
        simp only [checkmark_validation] at ho'
        cases o with
        | validated =>
          by_cases hp : pOk <;> simp [hp]
        | cancelled d =>
          have hne := readyCheckAux_cancelled_ne_nil (fun _ => by simp) ho'
          have hsub := readyCheckAux_cancelled_subset ho'
          obtain ⟨x, hx⟩ : ∃ y, y ∈ d := by
            cases d with
            | nil => exact absurd rfl hne
            | cons a t => exact ⟨a, List.mem_cons_self a t⟩
          obtain ⟨e, he, hep⟩ := (hfb _ _ hg).2 x (hsub x hx)
          have hem := List.mem_filter.mp he
          have hepool : e ∈ pool := hem.1
          have hec : e.channel = c := by simpa using hem.2
          have hdec : (resolveCancelled pool c d).length < pool.length := by
            apply length_filter_lt _ hepool
            simp [hep, hx, hec]
          dsimp only
          rw [Option.isSome_map']
          exact ih (resolveCancelled pool c d) checks.tail (by omega)
        | timedOut d =>
          have hacc0 : (acceptedOf game.player_ids_list (fun _ => Confirmation.pending)).length
              < 10 := by
            simp [acceptedOf]
          have hne := readyCheckAux_timedOut_ne_nil (fun _ => by simp) hacc0
            (hfb _ _ hg).1 ho'
          have hsub := readyCheckAux_timedOut_subset ho'
          obtain ⟨x, hx⟩ : ∃ y, y ∈ d := by
            cases d with
            | nil => exact absurd rfl hne
            | cons a t => exact ⟨a, List.mem_cons_self a t⟩
          obtain ⟨e, he, hep⟩ := (hfb _ _ hg).2 x (hsub x hx)
          have hem := List.mem_filter.mp he
          have hepool : e ∈ pool := hem.1
          have hdec : (resolveTimedOut pool d).length < pool.length := by
            apply length_filter_lt _ hepool
            simp [hep, hx]
          dsimp only
          rw [Option.isSome_map']
          exact ih (resolveTimedOut pool d) checks.tail (by omega)
      · rw [if_neg hsc]
        simp

/-- Claim C8: after a cancelled or timed-out ready check the orchestrator
re-invokes itself on the same channel, and this retry terminates — with
fuel one beyond the pool size the run always completes, and it stops
immediately when the search returns no candidate or the best candidate's
imbalance score is at least 0.2. -/
theorem matchmaking_retry_terminates
    (fb : List Entry → Option Game) (c : Nat) (pOk : Bool)
    (hfb : ∀ q g, fb q = some g → 10 ≤ g.player_ids_list.length ∧
      ∀ p ∈ g.player_ids_list, ∃ e ∈ q, e.player = p)
    (pool : List Entry) (checks : List (List ConfirmEvent)) :
    (run_matchmaking_logic fb c pOk (pool.length + 1) checks pool).isSome ∧
    (fb (channelEntries pool c) = none →
      run_matchmaking_logic fb c pOk (pool.length + 1) checks pool =
        some (MMResult.ok [] pool)) ∧
    (∀ g, fb (channelEntries pool c) = some g → mkRat 1 5 ≤ g.matchmaking_score →
      run_matchmaking_logic fb c pOk (pool.length + 1) checks pool =
        some (MMResult.ok [Effect.reportNotStarted (mkRat 1 2 + g.matchmaking_score)]
          pool)) := by
  refine ⟨run_terminates fb c pOk hfb (pool.length + 1) pool checks (Nat.lt_succ_self _),
    ?_, ?_⟩
  · intro h
    simp only [run_matchmaking_logic, h]
  · intro g hg hsc
    simp only [run_matchmaking_logic, hg, if_neg (not_lt.mpr hsc)]

/-- A ten-entry pool for the termination witness: players 1..10 over the
five roles, all in channel 0. -/
def pool10W : List Entry :=
  [⟨1, 0, 0⟩, ⟨2, 1, 0⟩, ⟨3, 2, 0⟩, ⟨4, 3, 0⟩, ⟨5, 4, 0⟩,
    ⟨6, 0, 0⟩, ⟨7, 1, 0⟩, ⟨8, 2, 0⟩, ⟨9, 3, 0⟩, ⟨10, 4, 0⟩]

/-- The balanced ten-player candidate of the termination witness. -/
def game10W : Game := ⟨[1, 2, 3, 4, 5, 6, 7, 8, 9, 10], mkRat 1 10⟩

/-- A search for the termination witness: proposes `game10W` on the full
ten-entry queue, nothing on any other queue. -/
def fb10W : List Entry → Option Game :=
  fun q => if q = pool10W then some game10W else none

/-- Closed witness for `matchmaking_retry_terminates`: the run on the
ten-entry pool with no confirmation events (one global timeout drop, then
no candidate) completes. -/
theorem matchmaking_retry_terminates_witness :
    (run_matchmaking_logic fb10W 0 true (pool10W.length + 1) [] pool10W).isSome ∧
    (fb10W (channelEntries pool10W 0) = none →
      run_matchmaking_logic fb10W 0 true (pool10W.length + 1) [] pool10W =
        some (MMResult.ok [] pool10W)) ∧
    (∀ g, fb10W (channelEntries pool10W 0) = some g → mkRat 1 5 ≤ g.matchmaking_score →
      run_matchmaking_logic fb10W 0 true (pool10W.length + 1) [] pool10W =
        some (MMResult.ok [Effect.reportNotStarted (mkRat 1 2 + g.matchmaking_score)]
          pool10W)) :=
  matchmaking_retry_terminates fb10W 0 true
    (fun q g h => by
      by_cases hq : q = pool10W
      · subst hq
        simp only [fb10W, if_true, eq_self_iff_true, Option.some.injEq] at h
        subst h
        exact ⟨by decide, by decide⟩
      · simp [fb10W, hq] at h)
    pool10W []

end InhouseBot
